import Mathlib

/-!
Verification of the tropipay-web-crawler core
(`src/commands/crawler.command.ts`, class `CrawlerCommand`).

The TypeScript source is shallowly embedded: every pure helper becomes a
Lean function over `String` / `List Char` (JS string semantics: `startsWith`,
`endsWith`, `includes`, first-occurrence `replace`, single-character `split`),
the HTML document handed to `processPage` is modelled as the list of elements
that cheerio's `$('*').each` walk visits (each with its tag, its direct text
with children removed, its full text, and its `href` attribute), and the HTTP
fetch (`extractUrl`) is an oracle `String → Option (List Element)` where
`none` covers network failure, non-200 status and an empty body, which all
make `extractUrl` return a falsy value.  The stateful `runCrawler` loop
becomes explicit state passing over `CrawlState`.
-/

namespace Crawler

/-! ## JS-style string primitives over `List Char` -/

/-- JS `s.startsWith(p)`. -/
def jsStartsWith (s p : String) : Bool := List.isPrefixOf p.data s.data

/-- JS `s.endsWith(p)`. -/
def jsEndsWith (s p : String) : Bool := List.isSuffixOf p.data s.data

/-- Substring test on char lists; `containsSub s pat` is JS `s.includes(pat)`. -/
def containsSub : List Char → List Char → Bool
  | [], pat => List.isPrefixOf pat []
  | c :: rest, pat => List.isPrefixOf pat (c :: rest) || containsSub rest pat

/-- JS `s.includes(p)`. -/
def jsIncludes (s p : String) : Bool := containsSub s.data p.data

/-- JS `s.replace(pat, rep)` with a plain-string pattern: replace the first
occurrence only, return the input unchanged when the pattern is absent. -/
def replaceFirst (pat rep : List Char) : List Char → List Char
  | [] => if List.isPrefixOf pat [] then rep else []
  | c :: rest =>
    if List.isPrefixOf pat (c :: rest) then rep ++ (c :: rest).drop pat.length
    else c :: replaceFirst pat rep rest

/-- The whitespace set JS `String.prototype.trim` strips. -/
def isJsWhitespace (c : Char) : Bool :=
  c == ' ' || c == '\t' || c == '\n' || c == '\r' ||
  c.toNat == 0xB || c.toNat == 0xC || c.toNat == 0xA0 || c.toNat == 0x1680 ||
  (0x2000 ≤ c.toNat && c.toNat ≤ 0x200A) || c.toNat == 0x2028 ||
  c.toNat == 0x2029 || c.toNat == 0x202F || c.toNat == 0x205F ||
  c.toNat == 0x3000 || c.toNat == 0xFEFF

/-- JS `s.trim()`. -/
def jsTrim (s : String) : String :=
  String.mk (((s.data.dropWhile isJsWhitespace).reverse.dropWhile isJsWhitespace).reverse)

/-- JS `s.split(sep)` for a single-character separator: splits at every
occurrence, keeping empty pieces (`"a  b".split(' ') = ["a","","b"]`,
`"".split(' ') = [""]`). -/
def splitOnChar (sep : Char) : List Char → List (List Char)
  | [] => [[]]
  | c :: rest =>
    match splitOnChar sep rest with
    | [] => if c == sep then [[], []] else [[c]]
    | g :: gs => if c == sep then [] :: g :: gs else (c :: g) :: gs

/-- JS `Array.prototype.join(sep)` restricted to the crawler's usage. -/
def joinWith (sep : String) : List String → String
  | [] => ""
  | [t] => t
  | t :: ts => t ++ sep ++ joinWith sep ts

/-! ## Configuration constants of the source file -/

def EXCLUDE_SCRIPTS : Bool := true
def EXCLUDED_HREFS : List String := ["/", "#"]
def SIMULTANEOUS_REQUESTS : Nat := 100
def TEXT_SEPARATOR : String := ", "
def PARAGRAPHS_OR_WORDS : String := "words"

def NO_URL_MSG : String := "The --url parameter is mandatory."
def INVALID_URL_MSG : String := "The --url parameter is not a valid URL."
def INVALID_MAXDIST_MSG : String := "The --maxdist parameter must be greater than 0."

def DEFAULT_MAXDIST : Int := 1
def DEFAULT_DB_NAME : String := "crawler.JSON"

/-! ## The text-exclusion regex `/\([^0-9]*\d+[0-9]*\)/g`

JS `replaceAll` with this global regex deletes every leftmost,
non-overlapping match: a `'('`, a maximal run of non-digits, at least one
digit (the greedy `\d+[0-9]*` always ends exactly at the end of the digit
run), then `')'`.  The scan is implemented with a structural fuel argument
(the remaining input length bounds the recursion) so that it reduces in the
kernel. -/

/-- Try to complete a match of `[^0-9]*\d+[0-9]*\)` at the position right
after an opening parenthesis; returns the rest of the input on success. -/
def parenNumTail (cs : List Char) : Option (List Char) :=
  let cs1 := cs.dropWhile (fun c => !c.isDigit)
  match cs1 with
  | [] => none
  | _ :: _ =>
    match cs1.dropWhile Char.isDigit with
    | ')' :: tail => some tail
    | _ => none

def stripParenNumsFuel : Nat → List Char → List Char
  | _, [] => []
  | 0, l => l
  | fuel + 1, c :: rest =>
    if c == '(' then
      match parenNumTail rest with
      | some tail => stripParenNumsFuel fuel tail
      | none => c :: stripParenNumsFuel fuel rest
    else c :: stripParenNumsFuel fuel rest

/-- JS `s.replaceAll(/\([^0-9]*\d+[0-9]*\)/g, '')`. -/
def stripParenNums (s : String) : String :=
  String.mk (stripParenNumsFuel s.data.length s.data)

/-- `EXCLUDE_REGEXS_FROM_TEXT`: the source holds one regex, applied as a
`replaceAll` by an empty string. -/
def EXCLUDE_REGEXS_FROM_TEXT : List (String → String) := [stripParenNums]

def applyExcludeRegexs (s : String) : String :=
  EXCLUDE_REGEXS_FROM_TEXT.foldl (fun acc re => re acc) s

/-! ## The word test `^[^\u0000-@[-`{-¿ʰ-ͯ×÷ -⯿]+$` -/

def isWordChar (c : Char) : Bool :=
  !(c.toNat ≤ 0x40 || (0x5B ≤ c.toNat && c.toNat ≤ 0x60) ||
    (0x7B ≤ c.toNat && c.toNat ≤ 0xBF) || (0x2B0 ≤ c.toNat && c.toNat ≤ 0x36F) ||
    c.toNat == 0xD7 || c.toNat == 0xF7 || (0x2000 ≤ c.toNat && c.toNat ≤ 0x2BFF))

/-- `utfWordsRegex.test w`: the anchored character-class regex holds exactly
when the token is nonempty and every character is word-like. -/
def utfWordTest (w : List Char) : Bool := !w.isEmpty && w.all isWordChar

/-! ## URL normalizer (`addHttpIfMissing`, `addWWWIfMissing`,
`deleteParamsFromUrl`, `processHrefValue`) -/

def addHttpIfMissing (mainUrl href : String) : String :=
  if jsStartsWith href "http" then href
  else if jsStartsWith href "/" && jsEndsWith mainUrl "/" then
    String.mk (mainUrl.data ++ href.data.drop 1)
  else if !jsStartsWith href "/" && !jsEndsWith mainUrl "/" then
    String.mk (mainUrl.data ++ '/' :: href.data)
  else String.mk (mainUrl.data ++ href.data)

def addWWWIfMissing (url : String) : String :=
  if containsSub url.data (("www.").data) then url
  else String.mk (replaceFirst (("://").data) (("://www.").data) url.data)

/-- JS `url.indexOf('?')` position, as used by `deleteParamsFromUrl`. -/
def deleteParamsFromUrl (url : String) : String :=
  if containsSub url.data (("?").data) then
    String.mk (url.data.take (url.data.findIdx (fun c => c == '?')))
  else url

def processHrefValue (mainUrl href : String) : String :=
  deleteParamsFromUrl (addWWWIfMissing (addHttpIfMissing mainUrl href))

/-! ## `validateUrl`

Regex `/^(https?|ftp|file):\/\/[-A-Z0-9+&@#\/%?=~_|!:,.;]*[-A-Z0-9+&@#\/%=~_|]/i`.
Since the second character class is contained in the first, the greedy match
with backtracking succeeds exactly when some position of the tail has an
end-class character with only body-class characters before it. -/

def isUrlBodyChar (c : Char) : Bool :=
  c.isAlpha || c.isDigit ||
  c == '-' || c == '+' || c == '&' || c == '@' || c == '#' || c == '/' ||
  c == '%' || c == '?' || c == '=' || c == '~' || c == '_' || c == '|' ||
  c == '!' || c == ':' || c == ',' || c == '.' || c == ';'

def isUrlEndChar (c : Char) : Bool :=
  c.isAlpha || c.isDigit ||
  c == '-' || c == '+' || c == '&' || c == '@' || c == '#' || c == '/' ||
  c == '%' || c == '=' || c == '~' || c == '_' || c == '|'

def urlTailMatch : List Char → Bool
  | [] => false
  | c :: rest => isUrlEndChar c || (isUrlBodyChar c && urlTailMatch rest)

/-- Match `^(https?|ftp|file):\/\/` case-insensitively; return what follows. -/
def schemeTail (cs : List Char) : Option (List Char) :=
  let lower := cs.map Char.toLower
  if List.isPrefixOf (("https://").data) lower then some (cs.drop 8)
  else if List.isPrefixOf (("http://").data) lower then some (cs.drop 7)
  else if List.isPrefixOf (("ftp://").data) lower then some (cs.drop 6)
  else if List.isPrefixOf (("file://").data) lower then some (cs.drop 7)
  else none

def validateUrl (url : String) : Bool :=
  match schemeTail url.data with
  | some tail => urlTailMatch tail
  | none => false

/-! ## The CLI entry `run`

`run` destructures `{url, maxdist, db}` and applies JS truthiness:
`undefined` and `""` are falsy strings, `undefined` and `0` are falsy
numbers.  The outcome is either a printed error message (the run ends,
`runCrawler` is never called) or the triple actually passed to
`runCrawler`. -/

structure IOptions where
  url : Option String
  maxdist : Option Int
  db : Option String
deriving DecidableEq

structure CrawlerInvocation where
  url : String
  maxdist : Int
  db : String
deriving DecidableEq

def truthyStr : Option String → Bool
  | none => false
  | some s => !s.data.isEmpty

def truthyInt : Option Int → Bool
  | none => false
  | some n => !(n == 0)

def run (options : IOptions) : Except String CrawlerInvocation :=
  if !truthyStr options.url then Except.error NO_URL_MSG
  else if !validateUrl (options.url.getD "") then Except.error INVALID_URL_MSG
  else if truthyInt options.maxdist ∧ options.maxdist.getD 0 < 1 then
    Except.error INVALID_MAXDIST_MSG
  else Except.ok
    { url := options.url.getD ""
      maxdist := if truthyInt options.maxdist then options.maxdist.getD 0 else DEFAULT_MAXDIST
      db := if truthyStr options.db then options.db.getD "" else DEFAULT_DB_NAME }

/-! ## Page extractor (`processPage`)

An `Element` is one node of cheerio's `$('*')` walk, in document order:
`tag` its tag name, `ownText` the text of
`$(element).clone().children().remove().end().text()` (direct text content),
`fullText` the text of `$(element).text()` (used for `<title>`), `href` the
`href` attribute when present (an absent attribute and an attribute that is
present but empty are distinguished, since JS `href &&` treats `""` as
falsy, which `some ""` models). -/

structure Element where
  tag : String
  ownText : String
  fullText : String
  href : Option String
deriving DecidableEq

structure IprocessedPage where
  url : String
  title : String
  texts : String
  links : List String
deriving DecidableEq

/-- Accumulator of the `$('*').each` loop: `pageTitle`, `findedText`,
`findedUrls` of the source. -/
structure PageAcc where
  pageTitle : String
  findedText : List String
  findedUrls : List String
deriving DecidableEq

/-- `pushUnique(arr, item)`. -/
def pushUnique (arr : List String) (item : String) : List String :=
  if item ∈ arr then arr else arr ++ [item]

/-- The word-wise branch: `innerText.split(' ')`, keep a token `word` when
`word && utfWordsRegex.test(word)`, `pushUnique` it onto `findedText`. -/
def processWords (findedText : List String) (innerText : String) : List String :=
  (splitOnChar ' ' innerText.data).foldl
    (fun acc w => if !w.isEmpty && utfWordTest w then pushUnique acc (String.mk w) else acc)
    findedText

/-- Title / text part of the element callback (everything except the
anchor handling). -/
def textStep (acc : PageAcc) (e : Element) : PageAcc :=
  if e.tag == "title" then { acc with pageTitle := e.fullText }
  else
    let innerText := applyExcludeRegexs (jsTrim e.ownText)
    if innerText.data ≠ [] then
      if PARAGRAPHS_OR_WORDS == "paragraphs" then
        { acc with findedText := pushUnique acc.findedText innerText }
      else { acc with findedText := processWords acc.findedText innerText }
    else acc

/-- Anchor part of the element callback: read `href`, exclude an absent or
empty attribute, the members of `EXCLUDED_HREFS` and `mailto` links,
normalize, and keep the result only when it starts with `mainUrl`. -/
def linkStep (mainUrl : String) (acc : PageAcc) (e : Element) : PageAcc :=
  if e.tag == "a" then
    match e.href with
    | some href =>
      if href.data ≠ [] ∧ href ∉ EXCLUDED_HREFS ∧ jsStartsWith href "mailto" = false then
        let normalizedUrl := processHrefValue mainUrl href
        if jsStartsWith normalizedUrl mainUrl then
          { acc with findedUrls := pushUnique acc.findedUrls normalizedUrl }
        else acc
      else acc
    | none => acc
  else acc

/-- One element of the `$('*').each` walk: scripts are skipped whole, every
other element feeds the title/text logic and then the anchor logic. -/
def elementStep (mainUrl : String) (acc : PageAcc) (e : Element) : PageAcc :=
  if EXCLUDE_SCRIPTS && (e.tag == "script" || e.tag == "noscript") then acc
  else linkStep mainUrl (textStep acc e) e

/-- `processPage(mainUrl, url)` given the already-fetched document
(`none` models `extractUrl` returning a falsy value: network error,
non-200 status, or empty body). -/
def processPage (mainUrl url : String) (htmlContent : Option (List Element)) :
    Option IprocessedPage :=
  match htmlContent with
  | none => none
  | some elems =>
    let acc := elems.foldl (elementStep mainUrl)
      { pageTitle := "", findedText := [], findedUrls := [] }
    some { url := url, title := acc.pageTitle,
           texts := joinWith TEXT_SEPARATOR acc.findedText, links := acc.findedUrls }

/-! ## Traversal engine (`runCrawler`) -/

structure Record where
  url : String
  title : String
  texts : String
deriving DecidableEq

/-- `visitedUrls`, `stackedOutput` (as the insertion-ordered association
list of `id ↦ Record`), and `autoincrmentId`. -/
structure CrawlState where
  visitedUrls : List String
  result : List (Nat × Record)
  autoincrmentId : Nat
deriving DecidableEq

/-- `chunkArray(arr, chunkSize)` via structural fuel (each step consumes at
least one element, so `arr.length` fuel is always enough).  For
`chunkSize = 0` the JS loop never terminates; that input is never used. -/
def chunkArrayFuel (chunkSize : Nat) : Nat → List String → List (List String)
  | _, [] => []
  | 0, _ :: _ => []
  | fuel + 1, a :: rest =>
    (a :: rest.take (chunkSize - 1)) ::
      chunkArrayFuel chunkSize fuel (rest.drop (chunkSize - 1))

def chunkArray (arr : List String) (chunkSize : Nat) : List (List String) :=
  chunkArrayFuel chunkSize arr.length arr

/-- `addLinks visited newUrls links`: the inner `for (const link of pr.links)`
loop, staging each link in `newUrlsToVisit` unless already visited or
already staged. -/
def addLinks (visited : List String) (newUrls : List String) (links : List String) :
    List String :=
  links.foldl
    (fun nu link => if link ∉ visited ∧ link ∉ nu then nu ++ [link] else nu) newUrls

/-- Folding one settled promise `pr` into the crawl state: a `null` result is
skipped; otherwise a `Record` is appended under `autoincrmentId`, the id is
incremented, the page URL is pushed onto `visitedUrls` (before the link
loop runs), and the page's links are staged. -/
def mergeResult (acc : CrawlState × List String) (pr : Option IprocessedPage) :
    CrawlState × List String :=
  match pr with
  | none => acc
  | some p =>
    let st := acc.1
    let visited' := st.visitedUrls ++ [p.url]
    ({ visitedUrls := visited'
       result := st.result ++
         [(st.autoincrmentId, { url := p.url, title := p.title, texts := p.texts })]
       autoincrmentId := st.autoincrmentId + 1 },
     addLinks visited' acc.2 p.links)

def processResults (acc : CrawlState × List String) (prs : List (Option IprocessedPage)) :
    CrawlState × List String :=
  prs.foldl mergeResult acc

/-- One `while` iteration: chunk the frontier, fetch and extract each chunk
(`Promise.all` keeps chunk order, and the merge loop is sequential after the
per-chunk barrier), and return the updated state together with
`newUrlsToVisit`, the next level's frontier. -/
def crawlLevel (fetch : String → Option (List Element)) (mainUrl : String)
    (st : CrawlState) (urlsToVisit : List String) : CrawlState × List String :=
  (chunkArray urlsToVisit SIMULTANEOUS_REQUESTS).foldl
    (fun acc chunk =>
      processResults acc (chunk.map (fun url => processPage mainUrl url (fetch url))))
    (st, [])

/-- The `while (currentLevel <= maxdist)` loop, one recursion step per
level. -/
def runCrawlerLoop (fetch : String → Option (List Element)) (mainUrl : String) :
    Nat → CrawlState → List String → CrawlState
  | 0, st, _ => st
  | n + 1, st, urlsToVisit =>
    let stepped := crawlLevel fetch mainUrl st urlsToVisit
    runCrawlerLoop fetch mainUrl n stepped.1 stepped.2

/-- `runCrawler(mainUrl, maxdist, dbName)` up to the final `writeFile` (the
persisted JSON is the serialization of the returned `result`). -/
def runCrawler (fetch : String → Option (List Element)) (mainUrl : String)
    (maxdist : Nat) : CrawlState :=
  runCrawlerLoop fetch mainUrl maxdist
    { visitedUrls := [], result := [], autoincrmentId := 1 } [mainUrl]

/-- The links a page contributes, as the traversal sees them. -/
def pageLinks (fetch : String → Option (List Element)) (mainUrl : String)
    (u : String) : List String :=
  match processPage mainUrl u (fetch u) with
  | none => []
  | some p => p.links

/-- URLs reachable from the frontier `F` in at most `n` link hops, following
exactly the links the crawler extracts. -/
def reachList (fetch : String → Option (List Element)) (mainUrl : String) :
    Nat → List String → List String
  | 0, F => F
  | n + 1, F => F ++ reachList fetch mainUrl n (F.flatMap (pageLinks fetch mainUrl))

/-- The dense id range `start, start+1, ..., start+n-1`. -/
def idRange (start : Nat) : Nat → List Nat
  | 0 => []
  | n + 1 => start :: idRange (start + 1) n

/-! ## Spec-side models for refinement comparisons -/

/-- Character-predicate split; with `isJsWhitespace` this renders the spec's
words "the remaining text is split on whitespace", to be compared with the
source's `split(' ')`. -/
def splitOnPred (p : Char → Bool) : List Char → List (List Char)
  | [] => [[]]
  | c :: rest =>
    match splitOnPred p rest with
    | [] => if p c then [[], []] else [[c]]
    | g :: gs => if p c then [] :: g :: gs else (c :: g) :: gs

/-- The word-wise text step exactly as the spec sentence describes it
(split on whitespace rather than on the space character); only used to
compare against `processWords`. -/
def processWordsSpecModel (findedText : List String) (innerText : String) : List String :=
  (splitOnPred isJsWhitespace innerText.data).foldl
    (fun acc w => if !w.isEmpty && utfWordTest w then pushUnique acc (String.mk w) else acc)
    findedText

/-- Split a list at the first occurrence of `pat`: the part before the
occurrence and the part after it. -/
def splitFirst (pat : List Char) : List Char → Option (List Char × List Char)
  | [] => if List.isPrefixOf pat [] then some ([], []) else none
  | c :: rest =>
    if List.isPrefixOf pat (c :: rest) then some ([], (c :: rest).drop pat.length)
    else
      match splitFirst pat rest with
      | some pr => some (c :: pr.1, pr.2)
      | none => none

/-- Spec wording of step 2: "if the result does not already contain `www.`,
insert it immediately after `://`". -/
def canonHostSpec (u : List Char) : List Char :=
  if containsSub u (("www.").data) then u
  else
    match splitFirst (("://").data) u with
    | some pr => pr.1 ++ (("://").data) ++ (("www.").data) ++ pr.2
    | none => u

/-- Spec wording of step 3: "truncate at the first `?`, if any". -/
def stripQuerySpec (u : List Char) : List Char := u.takeWhile (fun c => !(c == '?'))

/-- Step 1 of the amended claim, with the source's literal `http` prefix
test in place of the claimed "begins with a scheme". -/
def absolutizeSpec (siteRoot href : String) : String :=
  if jsStartsWith href "http" then href
  else if jsStartsWith href "/" && jsEndsWith siteRoot "/" then
    String.mk (siteRoot.data ++ href.data.drop 1)
  else if !jsStartsWith href "/" && !jsEndsWith siteRoot "/" then
    String.mk (siteRoot.data ++ '/' :: href.data)
  else String.mk (siteRoot.data ++ href.data)

/-- The three-step normalizer as the (amended) spec sentence composes it. -/
def normalizeSpec (siteRoot href : String) : String :=
  String.mk (stripQuerySpec (canonHostSpec (absolutizeSpec siteRoot href).data))

/-! ## Concrete inputs used by the end-to-end claims -/

def seedUrl : String := "http://www.x.com/"

/-- An anchor element with empty link text. -/
def anchorElem (href : String) : Element :=
  { tag := "a", ownText := "", fullText := "", href := some href }

/-- The single page of the spec's end-to-end scenario: title "Home", one
paragraph "Welcome (42)", one link `href="/about"`. -/
def pageC6 : List Element :=
  [ { tag := "html", ownText := "", fullText := "", href := none },
    { tag := "head", ownText := "", fullText := "", href := none },
    { tag := "title", ownText := "Home", fullText := "Home", href := none },
    { tag := "body", ownText := "", fullText := "", href := none },
    { tag := "p", ownText := "Welcome (42)", fullText := "Welcome (42)", href := none },
    anchorElem "/about" ]

def fetchC6 : String → Option (List Element) := fun u =>
  if u = seedUrl then some pageC6 else none

/-- Site where the seed links to `/v` and `/u`, and `/v` links to `/u`:
`/u` is staged for level 2 and, while level 2 runs, staged again for
level 3 by `/v` before `/u` itself is merged into Visited. -/
def dupFetch : String → Option (List Element) := fun u =>
  if u = seedUrl then some [anchorElem "/v", anchorElem "/u"]
  else if u = "http://www.x.com/v" then some [anchorElem "/u"]
  else if u = "http://www.x.com/u" then some []
  else none

/-- The chain `A -> B -> C -> D2` of the depth-bound scenario. -/
def chainFetch : String → Option (List Element) := fun u =>
  if u = seedUrl then some [anchorElem "/b"]
  else if u = "http://www.x.com/b" then some [anchorElem "/c"]
  else if u = "http://www.x.com/c" then some [anchorElem "/d2"]
  else if u = "http://www.x.com/d2" then some []
  else none

/-- A seed without `www.` whose page links to `/p?x=www.y`: the `www.`
in the query satisfies `addWWWIfMissing`'s test and is then stripped. -/
def queryFetch : String → Option (List Element) := fun u =>
  if u = "http://x.com/" then some [anchorElem "/p?x=www.y"] else none

def initialState : CrawlState := { visitedUrls := [], result := [], autoincrmentId := 1 }

/-! ## Basic lemmas about the string primitives -/

theorem isPrefixOf_ex (p s : List Char) :
    List.isPrefixOf p s = true ↔ ∃ t, s = p ++ t := by
  induction p generalizing s with
  | nil => simp [List.isPrefixOf]
  | cons a as ih =>
    cases s with
    | nil => simp [List.isPrefixOf]
    | cons b bs =>
      simp only [List.isPrefixOf, Bool.and_eq_true, beq_iff_eq, ih, List.cons_append,
        List.cons.injEq]
      constructor
      · rintro ⟨rfl, t, rfl⟩
        exact ⟨t, rfl, rfl⟩
      · rintro ⟨t, rfl, rfl⟩
        exact ⟨rfl, t, rfl⟩

theorem containsSub_ex (s pat : List Char) :
    containsSub s pat = true ↔ ∃ pre post, s = pre ++ pat ++ post := by
  induction s with
  | nil =>
    simp only [containsSub, isPrefixOf_ex]
    constructor
    · rintro ⟨t, ht⟩
      exact ⟨[], t, by simpa using ht⟩
    · rintro ⟨pre, post, h⟩
      have h' : pre = [] ∧ pat = [] ∧ post = [] := by simpa [List.append_assoc] using h.symm
      exact ⟨[], by simp [h'.2.1]⟩
  | cons c rest ih =>
    simp only [containsSub, Bool.or_eq_true, isPrefixOf_ex, ih]
    constructor
    · rintro (⟨t, ht⟩ | ⟨pre, post, h⟩)
      · exact ⟨[], t, by simpa using ht⟩
      · exact ⟨c :: pre, post, by simp [h]⟩
    · rintro ⟨pre, post, h⟩
      cases pre with
      | nil => exact Or.inl ⟨post, by simpa using h⟩
      | cons x xs =>
        rcases List.cons.injEq c rest x (xs ++ pat ++ post) ▸ h with h'
        simp only [List.cons_append, List.cons.injEq] at h
        exact Or.inr ⟨xs, post, h.2⟩

theorem containsSub_append (p r pat : List Char) (h : containsSub p pat = true) :
    containsSub (p ++ r) pat = true := by
  rcases (containsSub_ex p pat).mp h with ⟨pre, post, rfl⟩
  exact (containsSub_ex _ pat).mpr ⟨pre, post ++ r, by simp⟩

theorem pushUnique_mem (l : List String) (b a : String) :
    a ∈ pushUnique l b ↔ a ∈ l ∨ a = b := by
  by_cases h : b ∈ l
  · simp only [pushUnique, if_pos h]
    exact ⟨Or.inl, fun h' => h'.elim id (fun e => e ▸ h)⟩
  · simp [pushUnique, if_neg h]

theorem pushUnique_mono (l : List String) (b a : String) (h : a ∈ l) :
    a ∈ pushUnique l b :=
  (pushUnique_mem l b a).mpr (Or.inl h)

theorem pushUnique_nodup (l : List String) (b : String) (h : l.Nodup) :
    (pushUnique l b).Nodup := by
  by_cases hb : b ∈ l
  · simpa [pushUnique, if_pos hb] using h
  · simp only [pushUnique, if_neg hb]
    simpa [List.nodup_append] using ⟨h, hb⟩

theorem pushUnique_ext (l : List String) (b : String) :
    ∃ s, pushUnique l b = l ++ s := by
  by_cases hb : b ∈ l
  · exact ⟨[], by simp [pushUnique, if_pos hb]⟩
  · exact ⟨[b], by simp [pushUnique, if_neg hb]⟩

theorem idRange_concat (n s : Nat) : idRange s (n + 1) = idRange s n ++ [s + n] := by
  induction n generalizing s with
  | zero => simp [idRange]
  | succ m ih =>
    calc idRange s (m + 2) = s :: idRange (s + 1) (m + 1) := rfl
      _ = s :: (idRange (s + 1) m ++ [s + 1 + m]) := by rw [ih]
      _ = idRange s (m + 1) ++ [s + (m + 1)] := by simp [idRange, Nat.add_assoc, Nat.add_comm 1 m]

/-! ## Chunking is transparent to the merge loop -/

theorem chunkArrayFuel_join (k : Nat) :
    ∀ (fuel : Nat) (l : List String), l.length ≤ fuel →
      (chunkArrayFuel k fuel l).flatten = l := by
  intro fuel
  induction fuel with
  | zero =>
    intro l hl
    cases l with
    | nil => rfl
    | cons a rest => simp at hl
  | succ n ih =>
    intro l hl
    cases l with
    | nil => rfl
    | cons a rest =>
      have hrest : (rest.drop (k - 1)).length ≤ n := by
        have := List.length_drop (k - 1) rest
        simp at hl
        omega
      simp [chunkArrayFuel, List.flatten, ih _ hrest]

theorem chunkArray_join (arr : List String) (k : Nat) : (chunkArray arr k).flatten = arr :=
  chunkArrayFuel_join k arr.length arr (Nat.le_refl _)

theorem processResults_append (acc : CrawlState × List String)
    (l₁ l₂ : List (Option IprocessedPage)) :
    processResults acc (l₁ ++ l₂) = processResults (processResults acc l₁) l₂ :=
  List.foldl_append _ _ _ _

theorem foldl_chunks (f : String → Option IprocessedPage) :
    ∀ (chunks : List (List String)) (acc : CrawlState × List String),
      chunks.foldl (fun a c => processResults a (c.map f)) acc
        = processResults acc ((chunks.flatten).map f) := by
  intro chunks
  induction chunks with
  | nil => intro acc; rfl
  | cons c cs ih =>
    intro acc
    simp [List.flatten, List.map_append, processResults_append, ih]

theorem crawlLevel_eq (fetch : String → Option (List Element)) (m : String)
    (st : CrawlState) (F : List String) :
    crawlLevel fetch m st F
      = processResults (st, []) (F.map (fun u => processPage m u (fetch u))) := by
  unfold crawlLevel
  rw [foldl_chunks, chunkArray_join]

/-! ## Lemmas about one level's merge loop -/

theorem addLinks_mono :
    ∀ (ls visited nu : List String) (u : String), u ∈ nu → u ∈ addLinks visited nu ls := by
  intro ls
  induction ls with
  | nil => intro _ _ _ h; exact h
  | cons l rest ih =>
    intro visited nu u h
    simp only [addLinks, List.foldl_cons] at *
    apply ih
    split
    · exact List.mem_append_left _ h
    · exact h

theorem addLinks_src :
    ∀ (ls visited nu : List String) (u : String),
      u ∈ addLinks visited nu ls → u ∈ nu ∨ (u ∈ ls ∧ u ∉ visited) := by
  intro ls
  induction ls with
  | nil => intro _ _ _ h; exact Or.inl h
  | cons l rest ih =>
    intro visited nu u h
    simp only [addLinks, List.foldl_cons] at h
    rcases ih visited _ u h with h' | ⟨hmem, hnv⟩
    · revert h'
      split
      · rename_i hcond
        intro h'
        rcases List.mem_append.mp h' with h'' | h''
        · exact Or.inl h''
        · have : u = l := by simpa using h''
          exact Or.inr ⟨by simp [this], this ▸ hcond.1⟩
      · exact fun h' => Or.inl h'
    · exact Or.inr ⟨List.mem_cons_of_mem _ hmem, hnv⟩

theorem addLinks_nodup :
    ∀ (ls visited nu : List String), nu.Nodup → (addLinks visited nu ls).Nodup := by
  intro ls
  induction ls with
  | nil => intro _ _ h; exact h
  | cons l rest ih =>
    intro visited nu h
    simp only [addLinks, List.foldl_cons]
    apply ih
    split
    · rename_i hcond
      simpa [List.nodup_append] using ⟨h, hcond.2⟩
    · exact h

theorem mergeResult_none (acc : CrawlState × List String) : mergeResult acc none = acc := rfl

theorem processResults_visited_mono :
    ∀ (prs : List (Option IprocessedPage)) (acc : CrawlState × List String) (u : String),
      u ∈ acc.1.visitedUrls → u ∈ (processResults acc prs).1.visitedUrls := by
  intro prs
  induction prs with
  | nil => intro _ _ h; exact h
  | cons pr rest ih =>
    intro acc u h
    simp only [processResults, List.foldl_cons] at *
    apply ih
    cases pr with
    | none => exact h
    | some p => exact List.mem_append_left _ h

theorem processResults_visited_src :
    ∀ (prs : List (Option IprocessedPage)) (acc : CrawlState × List String) (u : String),
      u ∈ (processResults acc prs).1.visitedUrls →
        u ∈ acc.1.visitedUrls ∨ ∃ q, some q ∈ prs ∧ u = q.url := by
  intro prs
  induction prs with
  | nil => intro _ _ h; exact Or.inl h
  | cons pr rest ih =>
    intro acc u h
    simp only [processResults, List.foldl_cons] at h
    rcases ih _ u h with h' | ⟨q, hq, hu⟩
    · cases pr with
      | none => exact Or.inl h'
      | some p =>
        rcases List.mem_append.mp h' with h'' | h''
        · exact Or.inl h''
        · exact Or.inr ⟨p, List.mem_cons_self _ _, by simpa using h''⟩
    · exact Or.inr ⟨q, List.mem_cons_of_mem _ hq, hu⟩

theorem processResults_result_src :
    ∀ (prs : List (Option IprocessedPage)) (acc : CrawlState × List String)
      (p : Nat × Record),
      p ∈ (processResults acc prs).1.result →
        p ∈ acc.1.result ∨ ∃ q, some q ∈ prs ∧ p.2.url = q.url := by
  intro prs
  induction prs with
  | nil => intro _ _ h; exact Or.inl h
  | cons pr rest ih =>
    intro acc p h
    simp only [processResults, List.foldl_cons] at h
    rcases ih _ p h with h' | ⟨q, hq, hu⟩
    · cases pr with
      | none => exact Or.inl h'
      | some q0 =>
        rcases List.mem_append.mp h' with h'' | h''
        · exact Or.inl h''
        · refine Or.inr ⟨q0, List.mem_cons_self _ _, ?_⟩
          have : p = (acc.1.autoincrmentId,
              { url := q0.url, title := q0.title, texts := q0.texts }) := by simpa using h''
          simp [this]
    · exact Or.inr ⟨q, List.mem_cons_of_mem _ hq, hu⟩

theorem processResults_newUrls_src :
    ∀ (prs : List (Option IprocessedPage)) (acc : CrawlState × List String) (u : String),
      u ∈ (processResults acc prs).2 →
        u ∈ acc.2 ∨ ∃ q, some q ∈ prs ∧ u ∈ q.links ∧ u ∉ acc.1.visitedUrls := by
  intro prs
  induction prs with
  | nil => intro _ _ h; exact Or.inl h
  | cons pr rest ih =>
    intro acc u h
    simp only [processResults, List.foldl_cons] at h
    rcases ih _ u h with h' | ⟨q, hq, hl, hnv⟩
    · cases pr with
      | none => exact Or.inl h'
      | some p =>
        rcases addLinks_src _ _ _ _ h' with h'' | ⟨hl, hnv⟩
        · exact Or.inl h''
        · refine Or.inr ⟨p, List.mem_cons_self _ _, hl, fun hmem => hnv ?_⟩
          exact List.mem_append_left _ hmem
    · cases pr with
      | none => exact Or.inr ⟨q, List.mem_cons_of_mem _ hq, hl, hnv⟩
      | some p =>
        refine Or.inr ⟨q, List.mem_cons_of_mem _ hq, hl, fun hmem => hnv ?_⟩
        exact List.mem_append_left _ hmem

theorem processResults_newUrls_nodup :
    ∀ (prs : List (Option IprocessedPage)) (acc : CrawlState × List String),
      acc.2.Nodup → (processResults acc prs).2.Nodup := by
  intro prs
  induction prs with
  | nil => intro _ h; exact h
  | cons pr rest ih =>
    intro acc h
    simp only [processResults, List.foldl_cons]
    apply ih
    cases pr with
    | none => exact h
    | some p => exact addLinks_nodup _ _ _ h

theorem processResults_ids :
    ∀ (prs : List (Option IprocessedPage)) (acc : CrawlState × List String),
      acc.1.result.map Prod.fst = idRange 1 acc.1.result.length →
      acc.1.autoincrmentId = acc.1.result.length + 1 →
      (processResults acc prs).1.result.map Prod.fst
          = idRange 1 (processResults acc prs).1.result.length ∧
        (processResults acc prs).1.autoincrmentId
          = (processResults acc prs).1.result.length + 1 := by
  intro prs
  induction prs with
  | nil => intro _ h1 h2; exact ⟨h1, h2⟩
  | cons pr rest ih =>
    intro acc h1 h2
    simp only [processResults, List.foldl_cons]
    cases pr with
    | none => exact ih _ h1 h2
    | some p =>
      apply ih
      · simp only [mergeResult, List.map_append, List.length_append, List.map_cons,
          List.map_nil, List.length_cons, List.length_nil]
        rw [h1, h2]
        have := idRange_concat acc.1.result.length 1
        simp [this, Nat.add_comm]
      · simp [mergeResult, h2]

/-! ## Lemmas about `processPage` -/

theorem processPage_url (m v : String) (h : Option (List Element)) (q : IprocessedPage)
    (hq : processPage m v h = some q) : q.url = v := by
  cases h with
  | none => simp [processPage] at hq
  | some elems =>
    simp only [processPage, Option.some.injEq] at hq
    rw [← hq]

theorem textStep_urls (acc : PageAcc) (e : Element) :
    (textStep acc e).findedUrls = acc.findedUrls := by
  simp only [textStep]
  split
  · rfl
  · split
    · split <;> rfl
    · rfl

theorem textStep_title_of_ne (acc : PageAcc) (e : Element) (h : e.tag ≠ "title") :
    (textStep acc e).pageTitle = acc.pageTitle := by
  simp only [textStep]
  rw [if_neg (by simpa using h)]
  split
  · split <;> rfl
  · rfl

theorem linkStep_title (m : String) (acc : PageAcc) (e : Element) :
    (linkStep m acc e).pageTitle = acc.pageTitle := by
  simp only [linkStep]
  split
  · split
    · split
      · split <;> rfl
      · rfl
    · rfl
  · rfl

theorem linkStep_urls_src (m : String) (acc : PageAcc) (e : Element) (u : String)
    (h : u ∈ (linkStep m acc e).findedUrls) :
    u ∈ acc.findedUrls ∨ jsStartsWith u m = true := by
  simp only [linkStep] at h
  split at h
  · split at h
    · split at h
      · split at h
        · rename_i hcond
          rcases (pushUnique_mem _ _ _).mp h with h' | h'
          · exact Or.inl h'
          · exact Or.inr (h' ▸ hcond)
        · exact Or.inl h
      · exact Or.inl h
    · exact Or.inl h
  · exact Or.inl h

theorem elementStep_urls_src (m : String) (acc : PageAcc) (e : Element) (u : String)
    (h : u ∈ (elementStep m acc e).findedUrls) :
    u ∈ acc.findedUrls ∨ jsStartsWith u m = true := by
  simp only [elementStep] at h
  split at h
  · exact Or.inl h
  · rcases linkStep_urls_src _ _ _ _ h with h' | h'
    · rw [textStep_urls] at h'
      exact Or.inl h'
    · exact Or.inr h'

theorem elementStep_title_of_ne (m : String) (acc : PageAcc) (e : Element)
    (h : e.tag ≠ "title") : (elementStep m acc e).pageTitle = acc.pageTitle := by
  simp only [elementStep]
  split
  · rfl
  · rw [linkStep_title, textStep_title_of_ne _ _ h]

theorem foldl_urls_src (m : String) :
    ∀ (elems : List Element) (acc : PageAcc) (u : String),
      u ∈ (elems.foldl (elementStep m) acc).findedUrls →
        u ∈ acc.findedUrls ∨ jsStartsWith u m = true := by
  intro elems
  induction elems with
  | nil => intro _ _ h; exact Or.inl h
  | cons e rest ih =>
    intro acc u h
    simp only [List.foldl_cons] at h
    rcases ih _ u h with h' | h'
    · exact elementStep_urls_src _ _ _ _ h'
    · exact Or.inr h'

theorem foldl_title (m : String) :
    ∀ (elems : List Element) (acc : PageAcc), (∀ e ∈ elems, e.tag ≠ "title") →
      (elems.foldl (elementStep m) acc).pageTitle = acc.pageTitle := by
  intro elems
  induction elems with
  | nil => intro _ _; rfl
  | cons e rest ih =>
    intro acc h
    simp only [List.foldl_cons]
    rw [ih _ (fun x hx => h x (List.mem_cons_of_mem _ hx)),
      elementStep_title_of_ne _ _ _ (h e (List.mem_cons_self _ _))]

theorem processPage_links (m v : String) (h : Option (List Element)) (q : IprocessedPage)
    (hq : processPage m v h = some q) (l : String) (hl : l ∈ q.links) :
    jsStartsWith l m = true := by
  cases h with
  | none => simp [processPage] at hq
  | some elems =>
    simp only [processPage, Option.some.injEq] at hq
    rw [← hq] at hl
    rcases foldl_urls_src m elems _ l hl with h' | h'
    · simp at h'
    · exact h'

/-! ## Per-level corollaries -/

theorem crawlLevel_result_src (fetch : String → Option (List Element)) (m : String)
    (st : CrawlState) (F : List String) (p : Nat × Record)
    (h : p ∈ (crawlLevel fetch m st F).1.result) :
    p ∈ st.result ∨ (p.2.url ∈ F ∧ ∃ q, processPage m p.2.url (fetch p.2.url) = some q) := by
  rw [crawlLevel_eq] at h
  rcases processResults_result_src _ _ _ h with h' | ⟨q, hq, hu⟩
  · exact Or.inl h'
  · rcases List.mem_map.mp hq with ⟨v, hv, hpv⟩
    have huv : q.url = v := processPage_url _ _ _ _ hpv
    refine Or.inr ⟨?_, q, ?_⟩
    · rw [hu, huv]; exact hv
    · rw [hu, huv]; exact hpv

theorem crawlLevel_visited_src (fetch : String → Option (List Element)) (m : String)
    (st : CrawlState) (F : List String) (u : String)
    (h : u ∈ (crawlLevel fetch m st F).1.visitedUrls) :
    u ∈ st.visitedUrls ∨ (u ∈ F ∧ ∃ q, processPage m u (fetch u) = some q) := by
  rw [crawlLevel_eq] at h
  rcases processResults_visited_src _ _ _ h with h' | ⟨q, hq, hu⟩
  · exact Or.inl h'
  · rcases List.mem_map.mp hq with ⟨v, hv, hpv⟩
    have huv : q.url = v := processPage_url _ _ _ _ hpv
    refine Or.inr ⟨?_, q, ?_⟩
    · rw [hu, huv]; exact hv
    · rw [hu, huv]; exact hpv

theorem crawlLevel_newUrls_src (fetch : String → Option (List Element)) (m : String)
    (st : CrawlState) (F : List String) (u : String)
    (h : u ∈ (crawlLevel fetch m st F).2) :
    u ∉ st.visitedUrls ∧
      ∃ v q, v ∈ F ∧ processPage m v (fetch v) = some q ∧ u ∈ q.links := by
  rw [crawlLevel_eq] at h
  rcases processResults_newUrls_src _ _ _ h with h' | ⟨q, hq, hl, hnv⟩
  · simp at h'
  · rcases List.mem_map.mp hq with ⟨v, hv, hpv⟩
    exact ⟨hnv, v, q, hv, hpv, hl⟩

theorem crawlLevel_newUrls_nodup (fetch : String → Option (List Element)) (m : String)
    (st : CrawlState) (F : List String) : ((crawlLevel fetch m st F).2).Nodup := by
  rw [crawlLevel_eq]
  exact processResults_newUrls_nodup _ _ List.nodup_nil

theorem crawlLevel_ids (fetch : String → Option (List Element)) (m : String)
    (st : CrawlState) (F : List String)
    (h1 : st.result.map Prod.fst = idRange 1 st.result.length)
    (h2 : st.autoincrmentId = st.result.length + 1) :
    (crawlLevel fetch m st F).1.result.map Prod.fst
        = idRange 1 (crawlLevel fetch m st F).1.result.length ∧
      (crawlLevel fetch m st F).1.autoincrmentId
        = (crawlLevel fetch m st F).1.result.length + 1 := by
  rw [crawlLevel_eq]
  exact processResults_ids _ _ h1 h2

/-! ## Reachability and the level loop -/

theorem reach_self (fetch : String → Option (List Element)) (m : String) :
    ∀ (n : Nat) (F : List String) (u : String), u ∈ F → u ∈ reachList fetch m n F := by
  intro n
  cases n with
  | zero => intro F u h; exact h
  | succ k => intro F u h; exact List.mem_append_left _ h

theorem reach_mono_set (fetch : String → Option (List Element)) (m : String) :
    ∀ (n : Nat) (F G : List String), (∀ u ∈ F, u ∈ G) →
      ∀ u ∈ reachList fetch m n F, u ∈ reachList fetch m n G := by
  intro n
  induction n with
  | zero => intro F G hFG u hu; exact hFG u hu
  | succ k ih =>
    intro F G hFG u hu
    rcases List.mem_append.mp hu with h | h
    · exact List.mem_append_left _ (hFG u h)
    · apply List.mem_append_right
      refine ih _ _ ?_ u h
      intro v hv
      rcases List.mem_flatMap.mp hv with ⟨w, hw, hvw⟩
      exact List.mem_flatMap.mpr ⟨w, hFG w hw, hvw⟩

theorem loop_result_reach (fetch : String → Option (List Element)) (m : String) :
    ∀ (n : Nat) (st : CrawlState) (F : List String) (p : Nat × Record),
      p ∈ (runCrawlerLoop fetch m n st F).result →
        p ∈ st.result ∨ p.2.url ∈ reachList fetch m n F := by
  intro n
  induction n with
  | zero => intro st F p h; exact Or.inl h
  | succ k ih =>
    intro st F p h
    simp only [runCrawlerLoop] at h
    rcases ih _ _ p h with h' | h'
    · rcases crawlLevel_result_src fetch m st F p h' with h'' | ⟨hmem, _⟩
      · exact Or.inl h''
      · exact Or.inr (reach_self fetch m (k + 1) F _ hmem)
    · right
      apply List.mem_append_right
      refine reach_mono_set fetch m k _ _ ?_ _ h'
      intro v hv
      rcases crawlLevel_newUrls_src fetch m st F v hv with ⟨_, w, q, hw, hpw, hvq⟩
      refine List.mem_flatMap.mpr ⟨w, hw, ?_⟩
      simp [pageLinks, hpw, hvq]

theorem loop_fetch_inv (fetch : String → Option (List Element)) (m : String) :
    ∀ (n : Nat) (st : CrawlState) (F : List String),
      (∀ u ∈ st.visitedUrls, (fetch u).isSome = true) →
      (∀ p ∈ st.result, (fetch p.2.url).isSome = true) →
      (∀ u ∈ (runCrawlerLoop fetch m n st F).visitedUrls, (fetch u).isSome = true) ∧
        (∀ p ∈ (runCrawlerLoop fetch m n st F).result, (fetch p.2.url).isSome = true) := by
  intro n
  induction n with
  | zero => intro st F h1 h2; exact ⟨h1, h2⟩
  | succ k ih =>
    intro st F h1 h2
    simp only [runCrawlerLoop]
    apply ih
    · intro u hu
      rcases crawlLevel_visited_src fetch m st F u hu with h' | ⟨_, q, hq⟩
      · exact h1 u h'
      · cases hfu : fetch u with
        | none => rw [hfu] at hq; simp [processPage] at hq
        | some _ => rfl
    · intro p hp
      rcases crawlLevel_result_src fetch m st F p hp with h' | ⟨_, q, hq⟩
      · exact h2 p h'
      · cases hfu : fetch p.2.url with
        | none => rw [hfu] at hq; simp [processPage] at hq
        | some _ => rfl

theorem loop_ids (fetch : String → Option (List Element)) (m : String) :
    ∀ (n : Nat) (st : CrawlState) (F : List String),
      st.result.map Prod.fst = idRange 1 st.result.length →
      st.autoincrmentId = st.result.length + 1 →
      (runCrawlerLoop fetch m n st F).result.map Prod.fst
          = idRange 1 (runCrawlerLoop fetch m n st F).result.length ∧
        (runCrawlerLoop fetch m n st F).autoincrmentId
          = (runCrawlerLoop fetch m n st F).result.length + 1 := by
  intro n
  induction n with
  | zero => intro st F h1 h2; exact ⟨h1, h2⟩
  | succ k ih =>
    intro st F h1 h2
    simp only [runCrawlerLoop]
    rcases crawlLevel_ids fetch m st F h1 h2 with ⟨h1', h2'⟩
    exact ih _ _ h1' h2'

/-! ## The normalizer agrees with the spec's three-step description -/

theorem replaceFirst_splitFirst (pat rep : List Char) :
    ∀ s : List Char, replaceFirst pat rep s =
      match splitFirst pat s with
      | some pr => pr.1 ++ rep ++ pr.2
      | none => s := by
  intro s
  induction s with
  | nil =>
    simp only [replaceFirst, splitFirst]
    split
    · simp
    · rfl
  | cons c rest ih =>
    simp only [replaceFirst, splitFirst]
    split
    · simp
    · rw [ih]
      cases h : splitFirst pat rest with
      | some pr => simp
      | none => simp

theorem take_findIdx_takeWhile (p : Char → Bool) :
    ∀ cs : List Char, cs.take (cs.findIdx p) = cs.takeWhile (fun c => !(p c)) := by
  intro cs
  induction cs with
  | nil => rfl
  | cons c rest ih =>
    by_cases h : p c = true
    · simp [List.findIdx_cons, List.takeWhile_cons, h]
    · simp [List.findIdx_cons, List.takeWhile_cons, h, ih]

theorem no_query_takeWhile :
    ∀ cs : List Char, containsSub cs (("?").data) = false →
      cs.takeWhile (fun c => !(c == '?')) = cs := by
  intro cs
  induction cs with
  | nil => intro _; rfl
  | cons c rest ih =>
    intro h
    have hq : ("?").data = ['?'] := rfl
    rw [hq] at h
    simp only [containsSub, Bool.or_eq_false_iff] at h
    have hc : ¬ c = '?' := by
      intro hc
      have := h.1
      simp [List.isPrefixOf, hc] at this
    have hrest : containsSub rest (("?").data) = false := by rw [hq]; exact h.2
    simp [List.takeWhile_cons, hc, ih hrest, Ne.symm hc]

theorem deleteParams_eq (u : String) :
    (deleteParamsFromUrl u).data = stripQuerySpec u.data := by
  simp only [deleteParamsFromUrl, stripQuerySpec]
  split
  · exact take_findIdx_takeWhile _ u.data
  · rename_i h
    exact (no_query_takeWhile u.data (by simpa using h)).symm

theorem addWWW_eq (u : String) : (addWWWIfMissing u).data = canonHostSpec u.data := by
  simp only [addWWWIfMissing, canonHostSpec]
  split
  · rfl
  · show replaceFirst (("://").data) (("://www.").data) u.data = _
    rw [replaceFirst_splitFirst]
    cases h : splitFirst (("://").data) u.data with
    | some pr =>
      have hsplit : ("://www.").data = ("://").data ++ ("www.").data := rfl
      simp [hsplit, List.append_assoc]
    | none => rfl

/-! ## The word-wise text pipeline -/

theorem foldl_words_mem (toks : List (List Char)) :
    ∀ (acc : List String) (w : String),
      w ∈ toks.foldl
          (fun a tk => if !tk.isEmpty && utfWordTest tk then pushUnique a (String.mk tk) else a)
          acc ↔
        w ∈ acc ∨ (w.data ∈ toks ∧ (!w.data.isEmpty && utfWordTest w.data) = true) := by
  induction toks with
  | nil => intro acc w; simp
  | cons tk rest ih =>
    intro acc w
    simp only [List.foldl_cons, ih]
    by_cases h : (!tk.isEmpty && utfWordTest tk) = true
    · rw [if_pos h]
      simp only [pushUnique_mem]
      constructor
      · rintro ((hw | rfl) | ⟨hm, hp⟩)
        · exact Or.inl hw
        · exact Or.inr ⟨List.mem_cons_self _ _, h⟩
        · exact Or.inr ⟨List.mem_cons_of_mem _ hm, hp⟩
      · rintro (hw | ⟨hm, hp⟩)
        · exact Or.inl (Or.inl hw)
        · rcases List.mem_cons.mp hm with hdata | hdata
          · refine Or.inl (Or.inr ?_)
            rw [← hdata]
          · exact Or.inr ⟨hdata, hp⟩
    · rw [if_neg h]
      constructor
      · rintro (hw | ⟨hm, hp⟩)
        · exact Or.inl hw
        · exact Or.inr ⟨List.mem_cons_of_mem _ hm, hp⟩
      · rintro (hw | ⟨hm, hp⟩)
        · exact Or.inl hw
        · rcases List.mem_cons.mp hm with hdata | hdata
          · exact absurd (hdata ▸ hp) h
          · exact Or.inr ⟨hdata, hp⟩

theorem foldl_words_nodup (toks : List (List Char)) :
    ∀ acc : List String, acc.Nodup →
      (toks.foldl
        (fun a tk => if !tk.isEmpty && utfWordTest tk then pushUnique a (String.mk tk) else a)
        acc).Nodup := by
  induction toks with
  | nil => intro _ h; exact h
  | cons tk rest ih =>
    intro acc h
    simp only [List.foldl_cons]
    apply ih
    split
    · exact pushUnique_nodup _ _ h
    · exact h

theorem foldl_words_ext (toks : List (List Char)) :
    ∀ acc : List String, ∃ s,
      toks.foldl
        (fun a tk => if !tk.isEmpty && utfWordTest tk then pushUnique a (String.mk tk) else a)
        acc = acc ++ s := by
  induction toks with
  | nil => intro acc; exact ⟨[], by simp⟩
  | cons tk rest ih =>
    intro acc
    simp only [List.foldl_cons]
    split
    · rcases pushUnique_ext acc (String.mk tk) with ⟨s0, h0⟩
      rcases ih (pushUnique acc (String.mk tk)) with ⟨s1, h1⟩
      exact ⟨s0 ++ s1, by rw [h1, h0, List.append_assoc]⟩
    · exact ih acc

/-! # The claims -/

/-- C1 counterexample: with the seed linking to `/v` and `/u` (in that
order) and `/v` linking to `/u`, a depth-3 crawl stores `/u` twice: `/u` is
staged for level 3 by `/v`'s merge before `/u` itself is merged into
Visited during level 2, and the frontier is never re-checked against
Visited at fetch time.  This refutes both "a URL appears in the Output
Store at most once" and "each level's Frontier never contains a URL
already in Visited". -/
theorem C1_counterexample :
    (runCrawler dupFetch seedUrl 3).result.map (fun p => p.2.url)
        = ["http://www.x.com/", "http://www.x.com/v",
           "http://www.x.com/u", "http://www.x.com/u"] ∧
      ¬ ((runCrawler dupFetch seedUrl 3).result.map (fun p => p.2.url)).Nodup := by
  decide

/-- C1 (amended): each level's newly built Frontier contains no duplicate
and no URL that was in Visited when the level began; Output-Store-wide URL
uniqueness does not hold, because a URL staged into the next frontier is
not re-checked against Visited before being fetched. -/
theorem C1_frontier_fresh (fetch : String → Option (List Element)) (m : String)
    (st : CrawlState) (F : List String) :
    ((crawlLevel fetch m st F).2).Nodup ∧
      ∀ u ∈ (crawlLevel fetch m st F).2, u ∉ st.visitedUrls := by
  refine ⟨crawlLevel_newUrls_nodup fetch m st F, ?_⟩
  intro u hu
  exact (crawlLevel_newUrls_src fetch m st F u hu).1

/-- C1 witness: the amended statement at the duplicate-producing site. -/
theorem C1_witness :
    ((crawlLevel dupFetch seedUrl initialState [seedUrl]).2).Nodup ∧
      "http://www.x.com/v" ∉ initialState.visitedUrls :=
  ⟨(C1_frontier_fresh dupFetch seedUrl initialState [seedUrl]).1,
   (C1_frontier_fresh dupFetch seedUrl initialState [seedUrl]).2
     "http://www.x.com/v" (by decide)⟩

/-- C2: for every crawl, the ids of the Output Store, in insertion order,
are exactly `1, 2, ..., count`: unique, dense, increasing, no gaps, no
reuse, assigned by the counter starting at 1. -/
theorem C2_ids_dense (fetch : String → Option (List Element)) (m : String) (d : Nat) :
    (runCrawler fetch m d).result.map Prod.fst
      = idRange 1 (runCrawler fetch m d).result.length :=
  (loop_ids fetch m d { visitedUrls := [], result := [], autoincrmentId := 1 } [m]
    rfl rfl).1

/-- C3: depth bound.  (1) In general, every Record's URL is reachable from
the seed in at most `maxdist` link hops along the links the crawler itself
extracts, so a page reachable only via strictly more hops never appears.
(2) Concretely, on the chain `A -> B -> C -> D2` with `maxdist = 2`
(level 1 = {A}, level 2 = {B}) the store holds exactly A and B; C and D2
are absent. -/
theorem C3_depth_bound :
    (∀ (fetch : String → Option (List Element)) (m : String) (d : Nat) (p : Nat × Record),
        p ∈ (runCrawler fetch m d).result → p.2.url ∈ reachList fetch m d [m]) ∧
      (runCrawler chainFetch seedUrl 2).result.map (fun p => p.2.url)
        = ["http://www.x.com/", "http://www.x.com/b"] := by
  constructor
  · intro fetch m d p hp
    rcases loop_result_reach fetch m d _ [m] p hp with h | h
    · simp at h
    · exact h
  · decide

/-- C3 witness: the general bound applied to the concrete chain crawl. -/
theorem C3_witness :
    (1, ({ url := seedUrl, title := "", texts := "" } : Record))
        ∈ (runCrawler chainFetch seedUrl 2).result ∧
      seedUrl ∈ reachList chainFetch seedUrl 2 [seedUrl] :=
  ⟨by decide,
   C3_depth_bound.1 chainFetch seedUrl 2
     (1, { url := seedUrl, title := "", texts := "" }) (by decide)⟩

/-- C4 counterexample: a maximum depth of `0` is non-positive, yet the
guard `maxdist && maxdist < 1` skips it (JS `0` is falsy), no error is
reported, and traversal begins with the default depth 1. -/
theorem C4_counterexample :
    run { url := some "http://www.x.com/", maxdist := some 0, db := none }
      = Except.ok { url := "http://www.x.com/", maxdist := 1, db := "crawler.JSON" } :=
  rfl

/-- C4 (amended): a missing or empty seed URL, a malformed seed URL, and a
nonzero maximum depth below 1 (i.e. a negative one) are each detected
before traversal starts and reported; a maximum depth of `0` is treated
like an absent one, and an absent maximum depth defaults to 1. -/
theorem C4_validation (o : IOptions) :
    (o.url = none ∨ o.url = some "" → run o = Except.error NO_URL_MSG) ∧
      (∀ u, o.url = some u → u ≠ "" → validateUrl u = false →
        run o = Except.error INVALID_URL_MSG) ∧
      (∀ u md, o.url = some u → u ≠ "" → validateUrl u = true → o.maxdist = some md →
        md < 0 → run o = Except.error INVALID_MAXDIST_MSG) ∧
      (∀ u, o.url = some u → u ≠ "" → validateUrl u = true →
        (o.maxdist = none ∨ o.maxdist = some 0) →
        ∃ inv, run o = Except.ok inv ∧ inv.maxdist = 1 ∧ inv.url = u) := by
  refine ⟨?_, ?_, ?_, ?_⟩
  · rintro (h | h) <;> simp [run, truthyStr, h]
  · intro u hu hne hval
    cases u with
    | mk d =>
      cases d with
      | nil => exact absurd rfl hne
      | cons a l => simp [run, hu, truthyStr, hval]
  · intro u md hu hne hval hmd hneg
    cases u with
    | mk d =>
      cases d with
      | nil => exact absurd rfl hne
      | cons a l =>
        have hm0 : ¬ md = 0 := by omega
        have hm1 : md < 1 := by omega
        simp [run, hu, truthyStr, hval, truthyInt, hmd, hm0, hm1]
  · intro u hu hne hval hm
    cases u with
    | mk d =>
      cases d with
      | nil => exact absurd rfl hne
      | cons a l =>
        refine ⟨⟨String.mk (a :: l), 1,
          if truthyStr o.db then o.db.getD "" else DEFAULT_DB_NAME⟩, ?_, rfl, rfl⟩
        rcases hm with hm | hm <;>
          simp [run, hu, truthyStr, hval, truthyInt, hm, DEFAULT_MAXDIST]

/-- C4 witness: a negative depth is rejected before traversal. -/
theorem C4_witness :
    run { url := some "http://www.x.com/", maxdist := some (-3), db := none }
      = Except.error INVALID_MAXDIST_MSG :=
  (C4_validation _).2.2.1 "http://www.x.com/" (-3) rfl (by decide) (by decide) rfl
    (by decide)

/-- C5 counterexample: the claim says the trimmed, regex-stripped text is
split on whitespace.  On `"foo\tbar"` (a tab, so trimming keeps it intact)
a whitespace split keeps both word-like tokens, but the source splits on
the space character only, the single token fails the word test because of
the embedded tab, and nothing is kept. -/
theorem C5_counterexample :
    processWordsSpecModel [] "foo\tbar" = ["foo", "bar"] ∧
      processWords [] "foo\tbar" = [] := by
  decide

/-- C5 (amended): word-wise, the text is split on the space character
(U+0020) only; each token is kept exactly when it is nonempty and passes
the word-like character-class test, and kept tokens are appended with
order-preserving deduplication (the accumulated list stays duplicate-free
and is only ever extended at its end). -/
theorem C5_wordwise (acc : List String) (t : String) (h : acc.Nodup) :
    (processWords acc t).Nodup ∧
      (∃ s, processWords acc t = acc ++ s) ∧
      ∀ w : String, w ∈ processWords acc t ↔
        w ∈ acc ∨ (w.data ∈ splitOnChar ' ' t.data ∧
          (!w.data.isEmpty && utfWordTest w.data) = true) :=
  ⟨foldl_words_nodup _ acc h, foldl_words_ext _ acc, fun w => foldl_words_mem _ acc w⟩

/-- C5 witness: the amended statement on a concrete repeated-word text. -/
theorem C5_witness : (processWords [] "ab c ab").Nodup :=
  (C5_wordwise [] "ab c ab" (by decide)).1

/-- C6: end-to-end scenario.  Fetching the single page of
`http://www.x.com/` (title "Home", paragraph "Welcome (42)", one link
`/about`) with `maxdist = 1` yields exactly the store
`{1 ↦ {url: "http://www.x.com/", title: "Home", texts: "Welcome"}}` — the
parenthesized number is stripped — with only the seed visited; the staged
`/about` link is never fetched because the single level is the last. -/
theorem C6_end_to_end :
    runCrawler fetchC6 seedUrl 1 =
      { visitedUrls := ["http://www.x.com/"],
        result := [(1, { url := "http://www.x.com/", title := "Home", texts := "Welcome" })],
        autoincrmentId := 2 } := by
  decide

/-- C7 counterexample: `href = "ftp://a.b"` begins with a scheme, but the
absolutize step tests only for the literal prefix `http`, so the href is
not left as-is: it is resolved against the site root instead. -/
theorem C7_counterexample :
    processHrefValue "http://www.x.com" "ftp://a.b" = "http://www.x.com/ftp://a.b" ∧
      processHrefValue "http://www.x.com" "ftp://a.b" ≠ "ftp://a.b" := by
  decide

/-- C7 (amended): `processHrefValue` applies exactly the three described
steps in order, with step 1 testing for the literal prefix `http` (not for
an arbitrary scheme): (1) absolutize with the four described concatenation
cases, (2) insert `www.` right after the first `://` when `www.` is absent
from the whole string, (3) truncate at the first `?`. -/
theorem C7_normalize (siteRoot href : String) :
    processHrefValue siteRoot href = normalizeSpec siteRoot href := by
  apply String.ext
  show (deleteParamsFromUrl (addWWWIfMissing (addHttpIfMissing siteRoot href))).data
      = stripQuerySpec (canonHostSpec ((absolutizeSpec siteRoot href).data))
  rw [deleteParams_eq, addWWW_eq]
  rfl

/-- C8: a URL whose fetch fails (modelled by the fetch oracle returning
`none`, covering network errors, non-200 statuses and empty bodies) is
silently skipped: `processPage` yields no result for it, it never enters
Visited, and no Record of the Output Store carries it; the surrounding
level and run continue (the merge step of a skipped page is the
identity). -/
theorem C8_failed_fetch (fetch : String → Option (List Element)) (m : String) (d : Nat)
    (u : String) (hu : fetch u = none) :
    processPage m u (fetch u) = none ∧
      u ∉ (runCrawler fetch m d).visitedUrls ∧
      ∀ p ∈ (runCrawler fetch m d).result, p.2.url ≠ u := by
  have hinv := loop_fetch_inv fetch m d
    { visitedUrls := [], result := [], autoincrmentId := 1 } [m]
    (by simp) (by simp)
  refine ⟨by rw [hu]; rfl, ?_, ?_⟩
  · intro hmem
    have := hinv.1 u hmem
    rw [hu] at this
    simp at this
  · intro p hp hpu
    have := hinv.2 p hp
    rw [hpu, hu] at this
    simp at this

/-- C8 witness: a dead URL is absent from a concrete crawl's Visited. -/
theorem C8_witness :
    "http://x.com/dead" ∉ (runCrawler fetchC6 seedUrl 1).visitedUrls :=
  (C8_failed_fetch fetchC6 seedUrl 1 "http://x.com/dead" rfl).2.1

/-- C9 counterexample: the seed `http://x.com/` contains `://`; its page
links to `/p?x=www.y`, whose normalization finds `www.` inside the query
string, inserts nothing, and then strips the query — so the URL admitted
to the next frontier contains no `www.`. -/
theorem C9_counterexample :
    containsSub (("http://x.com/").data) (("://").data) = true ∧
      (crawlLevel queryFetch "http://x.com/" initialState ["http://x.com/"]).2
        = ["http://x.com/p"] ∧
      containsSub (("http://x.com/p").data) (("www.").data) = false := by
  decide

/-- C9 (amended): when the seed itself contains `www.`, every URL admitted
to a next-level frontier contains `www.`, since frontier admission forces
the normalized URL to start with the seed.  The seed containing `://`
alone is not enough, because `www.`-insertion happens before
query-stripping. -/
theorem C9_frontier_www (fetch : String → Option (List Element)) (m : String)
    (st : CrawlState) (F : List String) (u : String)
    (hm : containsSub m.data (("www.").data) = true)
    (hu : u ∈ (crawlLevel fetch m st F).2) :
    containsSub u.data (("www.").data) = true := by
  rcases crawlLevel_newUrls_src fetch m st F u hu with ⟨_, v, q, hv, hq, hl⟩
  have hpre : jsStartsWith u m = true := processPage_links m v (fetch v) q hq u hl
  rcases (isPrefixOf_ex m.data u.data).mp hpre with ⟨t, ht⟩
  rcases (containsSub_ex m.data _).mp hm with ⟨pre, post, hdecomp⟩
  apply (containsSub_ex u.data _).mpr
  exact ⟨pre, post ++ t, by rw [ht, hdecomp]; simp [List.append_assoc]⟩

/-- C9 witness: the frontier URL staged by the end-to-end page contains
`www.`. -/
theorem C9_witness :
    containsSub (("http://www.x.com/about").data) (("www.").data) = true :=
  C9_frontier_www fetchC6 seedUrl initialState [seedUrl] "http://www.x.com/about"
    (by decide) (by decide)

/-- C10: a successfully fetched page with no title element yields an
extraction result whose `title` is the empty string (`pageTitle` starts as
`''` and only a title element ever overwrites it; the field is a total
`String`, never absent). -/
theorem C10_no_title (m v : String) (elems : List Element) (q : IprocessedPage)
    (h : ∀ e ∈ elems, e.tag ≠ "title")
    (hq : processPage m v (some elems) = some q) :
    q.title = "" := by
  simp only [processPage, Option.some.injEq] at hq
  rw [← hq]
  exact foldl_title m elems _ h

/-- C10 witness: a title-less single-anchor page. -/
theorem C10_witness :
    ({ url := seedUrl, title := "", texts := "",
        links := ["http://www.x.com/about"] } : IprocessedPage).title = "" :=
  C10_no_title seedUrl seedUrl [anchorElem "/about"]
    { url := seedUrl, title := "", texts := "", links := ["http://www.x.com/about"] }
    (by decide) (by decide)

end Crawler
